import Mathlib

/-!
Verification of the duplicate-directory detection core of `dirdups`
(`src/main.rs`), shallowly embedded in Lean.

Modelling conventions:
* Byte strings are `List Nat` (each element a byte value); a file's size is
  the length of its content, as reported by `metadata().len()`.
* Directory paths (`PathBuf`) are abstracted as `Nat`: the algorithm uses
  only decidable equality and the total order `<` on paths (for pair
  canonicalisation), both of which `Nat` provides.
* `u64` arithmetic is `Nat` arithmetic taken `% 2^64` (release-mode
  wrapping semantics).
* A `HashSet` is modelled as a duplicate-free list recording one possible
  iteration order; a `HashMap` as an association list with unique keys
  recording one possible iteration order.  `unwrap()` on a lookup of a key
  the algorithm guarantees to be present is modelled by a total lookup
  returning `[]` on a missing key.
-/

namespace Dirdups

abbrev Dir := Nat
abbrev Hash := Nat

/-- One bit-step of CRC-32 (IEEE, reflected, polynomial `0xEDB88320`),
as computed by the `crc32fast` crate used in `get_crc32_checksum`. -/
def crc32_step (crc : Nat) : Nat :=
  if crc % 2 = 1 then (crc / 2) ^^^ 0xEDB88320 else crc / 2

/-- Fold one byte into the running CRC-32 state. -/
def crc32_byte (crc b : Nat) : Nat :=
  crc32_step^[8] (crc ^^^ (b % 256))

/-- CRC-32 of a byte string: initial state `0xFFFFFFFF`, final xor
`0xFFFFFFFF` (the `Hasher::new` / `finalize` convention of `crc32fast`). -/
def crc32 (bytes : List Nat) : Nat :=
  (bytes.foldl crc32_byte 0xFFFFFFFF) ^^^ 0xFFFFFFFF

/-- The read loop of `get_crc32_checksum` (main.rs:69-80): the file is read
in chunks of `BUF_SIZE = 1024` bytes; before each read the loop stops if
`read_first_bytes > 0 && bytes_readed >= read_first_bytes`; a read of `0`
bytes (end of file) also stops it; each chunk read is fed to the hasher.
This function returns the concatenation of all chunks fed to the hasher. -/
def readLoop (file : List Nat) (read_first_bytes bytes_readed : Nat) : List Nat :=
  if 0 < read_first_bytes ∧ read_first_bytes ≤ bytes_readed then []
  else if h : file = [] then []
  else
    (file.take 1024) ++
      readLoop (file.drop 1024) read_first_bytes (bytes_readed + (file.take 1024).length)
termination_by file.length
decreasing_by
  have hne : file.length ≠ 0 := fun hl => h (List.length_eq_zero.mp hl)
  simp only [List.length_drop]
  omega

/-- The function `get_crc32_checksum` (main.rs:63-82): CRC-32 over the bytes the read
loop feeds to the hasher. -/
def get_crc32_checksum (file : List Nat) (read_first_bytes : Nat) : Nat :=
  crc32 (readLoop file read_first_bytes 0)

/-- The function `get_hash` (main.rs:58-61): `crc32 as u64 + filesize as u64`, i.e. the
checksum plus the file size, wrapping modulo `2^64`. -/
def get_hash (file : List Nat) (filesize read_first_bytes : Nat) : Nat :=
  (get_crc32_checksum file read_first_bytes + filesize % 2 ^ 64) % 2 ^ 64

/-- A regular file produced by the external walker: its parent directory
and its byte content. Its size is the length of its content. -/
structure FileEntry where
  dir : Dir
  content : List Nat
deriving DecidableEq, Repr

/-- The size `metadata().len()` of the file, in bytes. -/
def FileEntry.size (f : FileEntry) : Nat := f.content.length

/-- The operation `HashSet::insert`: add an element unless already present.  Appending at
the end records one possible iteration order of the resulting set. -/
def insertSet {α : Type} [DecidableEq α] (x : α) (s : List α) : List α :=
  if x ∈ s then s else s ++ [x]

/-- Insert `v` into the set stored under key `k`, creating a fresh
singleton set if `k` is absent (the `get_mut`/`insert` pattern of
main.rs:120-134). -/
def mapInsert {κ α : Type} [DecidableEq κ] [DecidableEq α] (k : κ) (v : α) :
    List (κ × List α) → List (κ × List α)
  | [] => [(k, [v])]
  | (k', s) :: rest =>
    if k = k' then (k', insertSet v s) :: rest else (k', s) :: mapInsert k v rest

/-- Total lookup in an association map; `[]` for an absent key (standing in
for the `unwrap()` of lookups the algorithm guarantees to succeed). -/
def mapLookup {κ α : Type} [DecidableEq κ] (k : κ) : List (κ × List α) → List α
  | [] => []
  | (k', s) :: rest => if k = k' then s else mapLookup k rest

/-- The Corpus Index: `hash_dirs : HashMap<u64, HashSet<PathBuf>>` and
`dir_hashes : HashMap<PathBuf, HashSet<u64>>`. -/
structure Index where
  hash_dirs : List (Hash × List Dir)
  dir_hashes : List (Dir × List Hash)
deriving Repr

/-- The function `load_files_info` (main.rs:98-136): for each file, skip it if its size
is below `min_size`; otherwise compute its hash and insert the file's
directory into `hash_dirs[hash]` and the hash into `dir_hashes[dir]`. -/
def load_files_info (files : List FileEntry) (min_size head : Nat) (st : Index) : Index :=
  match files with
  | [] => st
  | f :: rest =>
    if f.size < min_size then
      load_files_info rest min_size head st
    else
      let h := get_hash f.content f.size head
      load_files_info rest min_size head
        ⟨mapInsert h f.dir st.hash_dirs, mapInsert f.dir h st.dir_hashes⟩

/-- The `Duplicate` record (main.rs:50-56). -/
structure Duplicate where
  dir1 : Dir
  dir2 : Dir
  dir1_files_number : Nat
  dir2_files_number : Nat
  intersection : Nat
deriving DecidableEq, Repr

/-- The canonically ordered pair `t` of main.rs:153-157:
`if dir < prev_dir { (dir, prev_dir) } else { (prev_dir, dir) }`. -/
def canonPair (dir prev_dir : Dir) : Dir × Dir :=
  if dir < prev_dir then (dir, prev_dir) else (prev_dir, dir)

/-- The value `files.intersection(&prev_files).collect::<HashSet<_>>().len()`: the
number of distinct elements of `files` that also occur in `prev_files`. -/
def intersectionLen (files prev_files : List Hash) : Nat :=
  ((files.filter (fun h => h ∈ prev_files)).dedup).length

/-- The inner loop of `find_duplicates` (main.rs:152-175): walk the
remaining directories of one fingerprint's set, pairing each with
`prev_dir`; skip (without advancing `prev_dir`) if the canonical pair was
already added; otherwise push a `Duplicate` built from the two directories'
fingerprint sets, remember the pair, and advance `prev_dir`. -/
def innerLoop (dir_hashes : List (Dir × List Hash)) :
    Dir → List Dir → List (Dir × Dir) → List Duplicate →
    List (Dir × Dir) × List Duplicate
  | _, [], added, dups => (added, dups)
  | prev_dir, dir :: rest, added, dups =>
    let t := canonPair dir prev_dir
    if t ∈ added then
      innerLoop dir_hashes prev_dir rest added dups
    else
      let files := mapLookup dir dir_hashes
      let prev_files := mapLookup prev_dir dir_hashes
      let dup : Duplicate :=
        ⟨dir, prev_dir, files.length, prev_files.length, intersectionLen files prev_files⟩
      innerLoop dir_hashes dir rest (t :: added) (dups ++ [dup])

/-- The outer loop of `find_duplicates` (main.rs:145-176): iterate over the
entries of `hash_dirs`; a hash with an empty directory set `break`s out of
the whole loop; otherwise the first directory seeds `prev_dir` and the
inner loop consumes the rest. -/
def outerLoop (dir_hashes : List (Dir × List Hash)) :
    List (Hash × List Dir) → List (Dir × Dir) → List Duplicate → List Duplicate
  | [], _, dups => dups
  | (_, dirs) :: rest, added, dups =>
    match dirs with
    | [] => dups
    | prev_dir :: dirs_rest =>
      let r := innerLoop dir_hashes prev_dir dirs_rest added dups
      outerLoop dir_hashes rest r.1 r.2

/-- The function `find_duplicates` (main.rs:138-178). -/
def find_duplicates (hash_dirs : List (Hash × List Dir))
    (dir_hashes : List (Dir × List Hash)) : List Duplicate :=
  outerLoop dir_hashes hash_dirs [] []

/-- The `--head` coercion of `main` (main.rs:211-216): a value strictly
between 0 and 1000 is replaced by 1024; the boolean records whether the
warning was printed. -/
def coerceHead (head : Nat) : Nat × Bool :=
  if 0 < head ∧ head < 1000 then (1024, true) else (head, false)

/-- Stable insertion of one candidate into a list sorted by descending
intersection count: `x` goes after every element whose intersection is
`≥ x.intersection`, so elements with equal keys keep their relative
order. -/
def insertDup (x : Duplicate) : List Duplicate → List Duplicate
  | [] => [x]
  | y :: ys =>
    if x.intersection ≤ y.intersection then y :: insertDup x ys else x :: y :: ys

/-- The call `duplicates.sort_by_key(|x| Reverse(x.intersection))` (main.rs:229):
Rust's stable sort by descending intersection count, modelled by the
extensionally equal stable insertion sort. -/
def sortByIntersectionDesc (dups : List Duplicate) : List Duplicate :=
  dups.foldl (fun acc x => insertDup x acc) []

/-- The filter-and-sort of `main` (main.rs:224-229): drop candidates with
`intersection < min_intersection`, then stable-sort by descending
intersection count. -/
def rank (dups : List Duplicate) (min_intersection : Nat) : List Duplicate :=
  sortByIntersectionDesc (dups.filter (fun x => Nat.ble min_intersection x.intersection))

/-- Overlap finding followed by ranking, as composed in `main`. -/
def report (hash_dirs : List (Hash × List Dir)) (dir_hashes : List (Dir × List Hash))
    (min_intersection : Nat) : List Duplicate :=
  rank (find_duplicates hash_dirs dir_hashes) min_intersection

/-- The whole pipeline of `main` after argument parsing: coerce the head
limit, build the Corpus Index from the walked files, find duplicates,
filter and sort them. -/
def run (files : List FileEntry) (min_size headArg min_intersection : Nat) : List Duplicate :=
  let head := (coerceHead headArg).1
  let st := load_files_info files min_size head ⟨[], []⟩
  report st.hash_dirs st.dir_hashes min_intersection

/-! ### Lemmas about the set and map operations -/

theorem mem_insertSet {α : Type} [DecidableEq α] {x v : α} {s : List α} :
    x ∈ insertSet v s ↔ x = v ∨ x ∈ s := by
  by_cases h : v ∈ s
  · simp only [insertSet, if_pos h]
    exact ⟨Or.inr, fun hc => hc.elim (fun hx => hx ▸ h) id⟩
  · simp [insertSet, if_neg h, List.mem_append, or_comm]

theorem nodup_insertSet {α : Type} [DecidableEq α] {v : α} {s : List α} (hs : s.Nodup) :
    (insertSet v s).Nodup := by
  by_cases h : v ∈ s
  · simpa [insertSet, if_pos h] using hs
  · simp only [insertSet, if_neg h]
    rw [List.nodup_append]
    refine ⟨hs, List.nodup_singleton v, fun a ha hav => ?_⟩
    have : a = v := by simpa using hav
    exact h (this ▸ ha)

theorem mapLookup_mapInsert {κ α : Type} [DecidableEq κ] [DecidableEq α]
    (k k' : κ) (v : α) (m : List (κ × List α)) :
    mapLookup k (mapInsert k' v m) =
      if k = k' then insertSet v (mapLookup k m) else mapLookup k m := by
  induction m with
  | nil =>
    by_cases hk : k = k' <;> simp [mapInsert, mapLookup, insertSet, hk]
  | cons p rest ih =>
    obtain ⟨a, s⟩ := p
    by_cases h1 : k' = a
    · subst h1
      by_cases h2 : k = k' <;> simp [mapInsert, mapLookup, h2]
    · by_cases h2 : k = a
      · subst h2
        have : ¬k = k' := fun hc => h1 hc.symm
        simp [mapInsert, if_neg h1, mapLookup, this]
      · simp [mapInsert, if_neg h1, mapLookup, if_neg h2, ih]

/-! ### Behaviour of `load_files_info` -/

theorem load_dir_hashes_mem (files : List FileEntry) (min_size head : Nat) (st : Index)
    (d : Dir) (f : Hash) :
    f ∈ mapLookup d (load_files_info files min_size head st).dir_hashes ↔
      f ∈ mapLookup d st.dir_hashes ∨
        ∃ fe ∈ files, ¬fe.size < min_size ∧ fe.dir = d ∧
          get_hash fe.content fe.size head = f := by
  induction files generalizing st with
  | nil => simp [load_files_info]
  | cons fe rest ih =>
    by_cases hsz : fe.size < min_size
    · rw [load_files_info, if_pos hsz, ih]
      simp only [List.mem_cons]
      constructor
      · rintro (h | ⟨g, hg, h2, h3, h4⟩)
        · exact Or.inl h
        · exact Or.inr ⟨g, Or.inr hg, h2, h3, h4⟩
      · rintro (h | ⟨g, rfl | hg, h2, h3, h4⟩)
        · exact Or.inl h
        · exact absurd hsz h2
        · exact Or.inr ⟨g, hg, h2, h3, h4⟩
    · rw [load_files_info, if_neg hsz, ih]
      simp only [mapLookup_mapInsert, List.mem_cons]
      by_cases hd : d = fe.dir
      · rw [if_pos hd]
        rw [mem_insertSet]
        constructor
        · rintro ((rfl | h) | ⟨g, hg, h2, h3, h4⟩)
          · exact Or.inr ⟨fe, Or.inl rfl, hsz, hd.symm, rfl⟩
          · exact Or.inl h
          · exact Or.inr ⟨g, Or.inr hg, h2, h3, h4⟩
        · rintro (h | ⟨g, rfl | hg, h2, h3, h4⟩)
          · exact Or.inl (Or.inr h)
          · exact Or.inl (Or.inl h4.symm)
          · exact Or.inr ⟨g, hg, h2, h3, h4⟩
      · rw [if_neg hd]
        constructor
        · rintro (h | ⟨g, hg, h2, h3, h4⟩)
          · exact Or.inl h
          · exact Or.inr ⟨g, Or.inr hg, h2, h3, h4⟩
        · rintro (h | ⟨g, rfl | hg, h2, h3, h4⟩)
          · exact Or.inl h
          · exact absurd (h3 ▸ rfl) hd
          · exact Or.inr ⟨g, hg, h2, h3, h4⟩

theorem load_hash_dirs_mem (files : List FileEntry) (min_size head : Nat) (st : Index)
    (d : Dir) (f : Hash) :
    d ∈ mapLookup f (load_files_info files min_size head st).hash_dirs ↔
      d ∈ mapLookup f st.hash_dirs ∨
        ∃ fe ∈ files, ¬fe.size < min_size ∧ fe.dir = d ∧
          get_hash fe.content fe.size head = f := by
  induction files generalizing st with
  | nil => simp [load_files_info]
  | cons fe rest ih =>
    by_cases hsz : fe.size < min_size
    · rw [load_files_info, if_pos hsz, ih]
      simp only [List.mem_cons]
      constructor
      · rintro (h | ⟨g, hg, h2, h3, h4⟩)
        · exact Or.inl h
        · exact Or.inr ⟨g, Or.inr hg, h2, h3, h4⟩
      · rintro (h | ⟨g, rfl | hg, h2, h3, h4⟩)
        · exact Or.inl h
        · exact absurd hsz h2
        · exact Or.inr ⟨g, hg, h2, h3, h4⟩
    · rw [load_files_info, if_neg hsz, ih]
      simp only [mapLookup_mapInsert, List.mem_cons]
      by_cases hf : f = get_hash fe.content fe.size head
      · rw [if_pos hf]
        rw [mem_insertSet]
        constructor
        · rintro ((rfl | h) | ⟨g, hg, h2, h3, h4⟩)
          · exact Or.inr ⟨fe, Or.inl rfl, hsz, rfl, hf.symm⟩
          · exact Or.inl h
          · exact Or.inr ⟨g, Or.inr hg, h2, h3, h4⟩
        · rintro (h | ⟨g, rfl | hg, h2, h3, h4⟩)
          · exact Or.inl (Or.inr h)
          · exact Or.inl (Or.inl h3.symm)
          · exact Or.inr ⟨g, hg, h2, h3, h4⟩
      · rw [if_neg hf]
        constructor
        · rintro (h | ⟨g, hg, h2, h3, h4⟩)
          · exact Or.inl h
          · exact Or.inr ⟨g, Or.inr hg, h2, h3, h4⟩
        · rintro (h | ⟨g, rfl | hg, h2, h3, h4⟩)
          · exact Or.inl h
          · exact absurd h4.symm hf
          · exact Or.inr ⟨g, hg, h2, h3, h4⟩

theorem load_dir_hashes_nodup (files : List FileEntry) (min_size head : Nat) (st : Index)
    (h0 : ∀ d, (mapLookup d st.dir_hashes).Nodup) :
    ∀ d, (mapLookup d (load_files_info files min_size head st).dir_hashes).Nodup := by
  induction files generalizing st with
  | nil => simpa [load_files_info] using h0
  | cons fe rest ih =>
    by_cases hsz : fe.size < min_size
    · rw [load_files_info, if_pos hsz]
      exact ih st h0
    · rw [load_files_info, if_neg hsz]
      refine ih _ ?_
      intro d
      simp only [mapLookup_mapInsert]
      by_cases hd : d = fe.dir
      · rw [if_pos hd]; exact nodup_insertSet (h0 d)
      · rw [if_neg hd]; exact h0 d

/-- C5: after the Corpus Index builder consumes any sequence of files,
the two mappings are cross-consistent: a directory `d` is a member of the
directory set of fingerprint `f` iff `f` is a member of the fingerprint set
of directory `d`. -/
theorem c5_index_cross_consistent (files : List FileEntry) (min_size head : Nat)
    (d : Dir) (f : Hash) :
    d ∈ mapLookup f (load_files_info files min_size head ⟨[], []⟩).hash_dirs ↔
      f ∈ mapLookup d (load_files_info files min_size head ⟨[], []⟩).dir_hashes := by
  rw [load_hash_dirs_mem, load_dir_hashes_mem]
  simp [mapLookup]

/-! ### The ranking stage -/

theorem insertDup_perm (x : Duplicate) (l : List Duplicate) :
    (insertDup x l).Perm (x :: l) := by
  induction l with
  | nil => exact List.Perm.refl _
  | cons y ys ih =>
    rw [insertDup]
    split
    · exact (ih.cons y).trans (List.Perm.swap x y ys)
    · exact List.Perm.refl _

theorem foldl_insertDup_perm :
    ∀ (l acc : List Duplicate), (l.foldl (fun acc x => insertDup x acc) acc).Perm (acc ++ l) := by
  intro l
  induction l with
  | nil => intro acc; simp
  | cons x xs ih =>
    intro acc
    have h1 : ((x :: xs).foldl (fun acc x => insertDup x acc) acc) =
        xs.foldl (fun acc x => insertDup x acc) (insertDup x acc) := rfl
    rw [h1]
    refine (ih (insertDup x acc)).trans ?_
    refine (((insertDup_perm x acc).append_right xs).trans ?_)
    exact List.perm_middle.symm

theorem sortByIntersectionDesc_perm (l : List Duplicate) :
    (sortByIntersectionDesc l).Perm l := by
  simpa using foldl_insertDup_perm l []

theorem mem_insertDup {x y : Duplicate} {l : List Duplicate} :
    y ∈ insertDup x l ↔ y = x ∨ y ∈ l := by
  rw [(insertDup_perm x l).mem_iff]
  simp

theorem insertDup_sorted {x : Duplicate} {l : List Duplicate}
    (hl : l.Pairwise (fun a b => b.intersection ≤ a.intersection)) :
    (insertDup x l).Pairwise (fun a b => b.intersection ≤ a.intersection) := by
  induction l with
  | nil => simp [insertDup]
  | cons y ys ih =>
    rw [insertDup]
    rw [List.pairwise_cons] at hl
    split
    · rename_i hxy
      rw [List.pairwise_cons]
      refine ⟨fun z hz => ?_, ih hl.2⟩
      rcases mem_insertDup.mp hz with rfl | hz
      · exact hxy
      · exact hl.1 z hz
    · rename_i hxy
      push_neg at hxy
      rw [List.pairwise_cons]
      refine ⟨fun z hz => ?_, List.pairwise_cons.mpr hl⟩
      rcases List.mem_cons.mp hz with rfl | hz
      · exact le_of_lt hxy
      · exact le_trans (hl.1 z hz) (le_of_lt hxy)

theorem sortByIntersectionDesc_sorted (l : List Duplicate) :
    (sortByIntersectionDesc l).Pairwise (fun a b => b.intersection ≤ a.intersection) := by
  suffices h : ∀ acc : List Duplicate,
      acc.Pairwise (fun a b => b.intersection ≤ a.intersection) →
      (l.foldl (fun acc x => insertDup x acc) acc).Pairwise
        (fun a b => b.intersection ≤ a.intersection) by
    exact h [] (List.Pairwise.nil)
  induction l with
  | nil => intro acc hacc; exact hacc
  | cons x xs ih => intro acc hacc; exact ih (insertDup x acc) (insertDup_sorted hacc)

theorem mem_report {hd : List (Hash × List Dir)} {dh : List (Dir × List Hash)}
    {m : Nat} {x : Duplicate} :
    x ∈ report hd dh m ↔ x ∈ find_duplicates hd dh ∧ m ≤ x.intersection := by
  rw [report, rank, (sortByIntersectionDesc_perm _).mem_iff, List.mem_filter]
  simp [Nat.ble_eq]

/-- C7: the emitted sequence of surviving candidates is sorted by
non-increasing intersection count: for every two adjacent output records,
the earlier one's intersection is at least the later one's. -/
theorem c7_output_sorted_desc (hash_dirs : List (Hash × List Dir))
    (dir_hashes : List (Dir × List Hash)) (min_intersection : Nat) :
    (report hash_dirs dir_hashes min_intersection).Chain'
      (fun a b => b.intersection ≤ a.intersection) :=
  (sortByIntersectionDesc_sorted _).chain'

/-- C8: a configured head-byte limit strictly between 0 and 1000 is
coerced to 1024 with a warning; 0 and values at least 1000 are used
unchanged, with no warning. -/
theorem c8_head_coercion (h : Nat) :
    (0 < h → h < 1000 → coerceHead h = (1024, true)) ∧
    (h = 0 → coerceHead h = (h, false)) ∧
    (1000 ≤ h → coerceHead h = (h, false)) := by
  refine ⟨fun h1 h2 => ?_, fun h1 => ?_, fun h1 => ?_⟩
  · rw [coerceHead, if_pos ⟨h1, h2⟩]
  · rw [coerceHead, if_neg (by omega)]
  · rw [coerceHead, if_neg (by omega)]

/-- Witness for C8 at `h = 500` and `h = 2000`. -/
theorem c8_head_coercion_witness :
    (0 < 500 ∧ 500 < 1000 ∧ coerceHead 500 = (1024, true)) ∧
    (1000 ≤ 2000 ∧ coerceHead 2000 = (2000, false)) :=
  ⟨⟨by decide, by decide, (c8_head_coercion 500).1 (by decide) (by decide)⟩,
   ⟨by decide, (c8_head_coercion 2000).2.2 (by decide)⟩⟩

/-! ### Invariants of the `find_duplicates` loops -/

theorem innerLoop_shape (dh : List (Dir × List Hash)) (Q : Duplicate → Prop)
    (hQ : ∀ dir prev : Dir,
      Q ⟨dir, prev, (mapLookup dir dh).length, (mapLookup prev dh).length,
         intersectionLen (mapLookup dir dh) (mapLookup prev dh)⟩) :
    ∀ (rest : List Dir) (prev : Dir) (added : List (Dir × Dir)) (dups : List Duplicate),
      (∀ x ∈ dups, Q x) → ∀ x ∈ (innerLoop dh prev rest added dups).2, Q x := by
  intro rest
  induction rest with
  | nil => intro prev added dups hdups x hx; exact hdups x hx
  | cons dir rest ih =>
    intro prev added dups hdups x hx
    rw [innerLoop] at hx
    by_cases hmem : canonPair dir prev ∈ added
    · rw [if_pos hmem] at hx
      exact ih prev added dups hdups x hx
    · rw [if_neg hmem] at hx
      refine ih dir _ _ ?_ x hx
      intro y hy
      rcases List.mem_append.mp hy with hy | hy
      · exact hdups y hy
      · rcases List.mem_singleton.mp hy with rfl
        exact hQ dir prev

theorem outerLoop_shape (dh : List (Dir × List Hash)) (Q : Duplicate → Prop)
    (hQ : ∀ dir prev : Dir,
      Q ⟨dir, prev, (mapLookup dir dh).length, (mapLookup prev dh).length,
         intersectionLen (mapLookup dir dh) (mapLookup prev dh)⟩) :
    ∀ (entries : List (Hash × List Dir)) (added : List (Dir × Dir)) (dups : List Duplicate),
      (∀ x ∈ dups, Q x) → ∀ x ∈ outerLoop dh entries added dups, Q x := by
  intro entries
  induction entries with
  | nil => intro added dups hdups x hx; exact hdups x hx
  | cons p entries ih =>
    obtain ⟨h, dirs⟩ := p
    intro added dups hdups x hx
    match dirs with
    | [] => exact hdups x hx
    | prev :: dirs_rest =>
      exact ih _ _ (innerLoop_shape dh Q hQ dirs_rest prev added dups hdups) x hx

theorem find_duplicates_shape (hd : List (Hash × List Dir)) (dh : List (Dir × List Hash)) :
    ∀ x ∈ find_duplicates hd dh,
      x.dir1_files_number = (mapLookup x.dir1 dh).length ∧
      x.dir2_files_number = (mapLookup x.dir2 dh).length ∧
      x.intersection = intersectionLen (mapLookup x.dir1 dh) (mapLookup x.dir2 dh) := by
  refine outerLoop_shape dh _ ?_ hd [] [] (by simp)
  intro dir prev
  exact ⟨rfl, rfl, rfl⟩

theorem innerLoop_origin (dh : List (Dir × List Hash)) (ds : List Dir) (Q : Duplicate → Prop)
    (hQ : ∀ dir prev : Dir, dir ∈ ds → prev ∈ ds → dir ≠ prev →
      Q ⟨dir, prev, (mapLookup dir dh).length, (mapLookup prev dh).length,
         intersectionLen (mapLookup dir dh) (mapLookup prev dh)⟩) :
    ∀ (rest : List Dir) (prev : Dir) (added : List (Dir × Dir)) (dups : List Duplicate),
      prev ∈ ds → (∀ d ∈ rest, d ∈ ds) → rest.Nodup → prev ∉ rest →
      (∀ x ∈ dups, Q x) → ∀ x ∈ (innerLoop dh prev rest added dups).2, Q x := by
  intro rest
  induction rest with
  | nil => intro prev added dups _ _ _ _ hdups x hx; exact hdups x hx
  | cons dir rest ih =>
    intro prev added dups hprev hsub hnd hnotin hdups x hx
    have hdirds : dir ∈ ds := hsub dir (List.mem_cons_self dir rest)
    have hsub' : ∀ d ∈ rest, d ∈ ds := fun d hdmem => hsub d (List.mem_cons_of_mem dir hdmem)
    have hnd' : rest.Nodup := hnd.of_cons
    rw [innerLoop] at hx
    by_cases hmem : canonPair dir prev ∈ added
    · rw [if_pos hmem] at hx
      have hnotin' : prev ∉ rest := fun hc => hnotin (List.mem_cons_of_mem dir hc)
      exact ih prev added dups hprev hsub' hnd' hnotin' hdups x hx
    · rw [if_neg hmem] at hx
      have hne : dir ≠ prev := by
        intro hc
        exact hnotin (hc ▸ List.mem_cons_self dir rest)
      have hdirnotin : dir ∉ rest := (List.nodup_cons.mp hnd).1
      refine ih dir _ _ hdirds hsub' hnd' hdirnotin ?_ x hx
      intro y hy
      rcases List.mem_append.mp hy with hy | hy
      · exact hdups y hy
      · rcases List.mem_singleton.mp hy with rfl
        exact hQ dir prev hdirds hprev hne

theorem outerLoop_origin (dh : List (Dir × List Hash)) (Q : Duplicate → Prop) :
    ∀ (entries : List (Hash × List Dir)) (added : List (Dir × Dir)) (dups : List Duplicate),
      (∀ p ∈ entries, (p.2 : List Dir).Nodup) →
      (∀ p ∈ entries, ∀ dir prev : Dir, dir ∈ p.2 → prev ∈ p.2 → dir ≠ prev →
        Q ⟨dir, prev, (mapLookup dir dh).length, (mapLookup prev dh).length,
           intersectionLen (mapLookup dir dh) (mapLookup prev dh)⟩) →
      (∀ x ∈ dups, Q x) → ∀ x ∈ outerLoop dh entries added dups, Q x := by
  intro entries
  induction entries with
  | nil => intro added dups _ _ hdups x hx; exact hdups x hx
  | cons p entries ih =>
    obtain ⟨h, dirs⟩ := p
    intro added dups hnd hQ hdups x hx
    have hndtail : ∀ p ∈ entries, (p.2 : List Dir).Nodup :=
      fun p hp => hnd p (List.mem_cons_of_mem _ hp)
    have hQtail : ∀ p ∈ entries, ∀ dir prev : Dir, dir ∈ p.2 → prev ∈ p.2 → dir ≠ prev →
        Q ⟨dir, prev, (mapLookup dir dh).length, (mapLookup prev dh).length,
           intersectionLen (mapLookup dir dh) (mapLookup prev dh)⟩ :=
      fun p hp => hQ p (List.mem_cons_of_mem _ hp)
    match dirs, hnd, hQ with
    | [], _, _ => exact hdups x hx
    | prev :: dirs_rest, hnd, hQ =>
      have hndhead : (prev :: dirs_rest).Nodup := hnd _ (List.mem_cons_self _ _)
      refine ih _ _ hndtail hQtail ?_ x hx
      refine innerLoop_origin dh (prev :: dirs_rest) Q
        (hQ _ (List.mem_cons_self _ _)) dirs_rest prev added dups
        (List.mem_cons_self _ _) (fun d hdmem => List.mem_cons_of_mem _ hdmem)
        hndhead.of_cons (List.nodup_cons.mp hndhead).1 hdups

theorem innerLoop_canon (dh : List (Dir × List Hash)) :
    ∀ (rest : List Dir) (prev : Dir) (added : List (Dir × Dir)) (dups : List Duplicate),
      (dups.map (fun x => canonPair x.dir1 x.dir2)).Nodup →
      (∀ x ∈ dups, canonPair x.dir1 x.dir2 ∈ added) →
      ((innerLoop dh prev rest added dups).2.map (fun x => canonPair x.dir1 x.dir2)).Nodup ∧
      ∀ x ∈ (innerLoop dh prev rest added dups).2,
        canonPair x.dir1 x.dir2 ∈ (innerLoop dh prev rest added dups).1 := by
  intro rest
  induction rest with
  | nil => intro prev added dups h1 h2; exact ⟨h1, h2⟩
  | cons dir rest ih =>
    intro prev added dups h1 h2
    rw [innerLoop]
    by_cases hmem : canonPair dir prev ∈ added
    · rw [if_pos hmem]
      exact ih prev added dups h1 h2
    · rw [if_neg hmem]
      refine ih dir _ _ ?_ ?_
      · rw [List.map_append, List.nodup_append]
        refine ⟨h1, by simp, ?_⟩
        intro t ht ht'
        have ht2 : t = canonPair dir prev := by simpa using ht'
        rcases List.mem_map.mp ht with ⟨y, hy, hy2⟩
        exact hmem (ht2 ▸ hy2 ▸ h2 y hy)
      · intro y hy
        rcases List.mem_append.mp hy with hy | hy
        · exact List.mem_cons_of_mem _ (h2 y hy)
        · rcases List.mem_singleton.mp hy with rfl
          exact List.mem_cons_self _ _

theorem outerLoop_canon (dh : List (Dir × List Hash)) :
    ∀ (entries : List (Hash × List Dir)) (added : List (Dir × Dir)) (dups : List Duplicate),
      (dups.map (fun x => canonPair x.dir1 x.dir2)).Nodup →
      (∀ x ∈ dups, canonPair x.dir1 x.dir2 ∈ added) →
      ((outerLoop dh entries added dups).map (fun x => canonPair x.dir1 x.dir2)).Nodup := by
  intro entries
  induction entries with
  | nil => intro added dups h1 _; exact h1
  | cons p entries ih =>
    obtain ⟨h, dirs⟩ := p
    intro added dups h1 h2
    match dirs with
    | [] => exact h1
    | prev :: dirs_rest =>
      have hinner := innerLoop_canon dh dirs_rest prev added dups h1 h2
      exact ih _ _ hinner.1 hinner.2

theorem find_duplicates_canon_nodup (hd : List (Hash × List Dir))
    (dh : List (Dir × List Hash)) :
    ((find_duplicates hd dh).map (fun x => canonPair x.dir1 x.dir2)).Nodup :=
  outerLoop_canon dh hd [] [] (by simp) (by simp)

theorem report_canon_nodup (hash_dirs : List (Hash × List Dir))
    (dir_hashes : List (Dir × List Hash)) (min_intersection : Nat) :
    ((report hash_dirs dir_hashes min_intersection).map
      (fun x => canonPair x.dir1 x.dir2)).Nodup := by
  have h1 := find_duplicates_canon_nodup hash_dirs dir_hashes
  have h2 : ((find_duplicates hash_dirs dir_hashes).filter
      (fun x => Nat.ble min_intersection x.intersection)).Sublist
      (find_duplicates hash_dirs dir_hashes) := List.filter_sublist _
  have h3 := h1.sublist (h2.map (fun x => canonPair x.dir1 x.dir2))
  have h4 := (sortByIntersectionDesc_perm ((find_duplicates hash_dirs dir_hashes).filter
      (fun x => Nat.ble min_intersection x.intersection))).map
      (fun x => canonPair x.dir1 x.dir2)
  exact h4.nodup_iff.mpr h3

/-- C4: in every output each unordered pair of directories occurs at
most once: mapping every reported candidate to its canonically ordered
pair yields a duplicate-free list, so no pair is reported twice, nor both
as `{A,B}` and `{B,A}`. -/
theorem c4_pair_reported_at_most_once (hash_dirs : List (Hash × List Dir))
    (dir_hashes : List (Dir × List Hash)) (min_intersection : Nat) :
    ((report hash_dirs dir_hashes min_intersection).map
      (fun x => canonPair x.dir1 x.dir2)).Nodup :=
  report_canon_nodup hash_dirs dir_hashes min_intersection

theorem intersectionLen_eq_card (f p : List Hash) :
    intersectionLen f p = (f.toFinset ∩ p.toFinset).card := by
  rw [intersectionLen, ← List.card_toFinset]
  congr 1
  ext a
  simp [List.mem_filter, Finset.mem_inter]

/-- C6: for every reported candidate, the intersection is the exact
cardinality of the two directories' fingerprint-set intersection, the
reported counts are the sizes of those sets, and
`intersection ≤ min(dir1_files_number, dir2_files_number)` (it is a `Nat`,
so `0 ≤ intersection` holds trivially). -/
theorem c6_intersection_bounds (hash_dirs : List (Hash × List Dir))
    (dir_hashes : List (Dir × List Hash)) (min_intersection : Nat)
    (hnd : ∀ d, (mapLookup d dir_hashes).Nodup) :
    ∀ x ∈ report hash_dirs dir_hashes min_intersection,
      x.intersection ≤ min x.dir1_files_number x.dir2_files_number ∧
      x.dir1_files_number = (mapLookup x.dir1 dir_hashes).toFinset.card ∧
      x.dir2_files_number = (mapLookup x.dir2 dir_hashes).toFinset.card ∧
      x.intersection = ((mapLookup x.dir1 dir_hashes).toFinset ∩
        (mapLookup x.dir2 dir_hashes).toFinset).card := by
  intro x hx
  obtain ⟨hfd, -⟩ := mem_report.mp hx
  obtain ⟨e1, e2, e3⟩ := find_duplicates_shape hash_dirs dir_hashes x hfd
  have hc1 : (mapLookup x.dir1 dir_hashes).toFinset.card =
      (mapLookup x.dir1 dir_hashes).length := List.toFinset_card_of_nodup (hnd _)
  have hc2 : (mapLookup x.dir2 dir_hashes).toFinset.card =
      (mapLookup x.dir2 dir_hashes).length := List.toFinset_card_of_nodup (hnd _)
  have hint : x.intersection = ((mapLookup x.dir1 dir_hashes).toFinset ∩
      (mapLookup x.dir2 dir_hashes).toFinset).card := by
    rw [e3, intersectionLen_eq_card]
  refine ⟨?_, by rw [e1, hc1], by rw [e2, hc2], hint⟩
  rw [hint, e1, e2, ← hc1, ← hc2]
  exact le_min (Finset.card_le_card Finset.inter_subset_left)
    (Finset.card_le_card Finset.inter_subset_right)

/-- Witness for C6 at a concrete corpus index: two directories sharing one
fingerprint. -/
theorem c6_intersection_bounds_witness :
    (∀ d : Dir, (mapLookup d ([(0, [5]), (1, [5])] : List (Dir × List Hash))).Nodup) ∧
    (⟨1, 0, 1, 1, 1⟩ : Duplicate) ∈ report [(5, [0, 1])] [(0, [5]), (1, [5])] 1 ∧
    (⟨1, 0, 1, 1, 1⟩ : Duplicate).intersection ≤
      min (⟨1, 0, 1, 1, 1⟩ : Duplicate).dir1_files_number
        (⟨1, 0, 1, 1, 1⟩ : Duplicate).dir2_files_number := by
  have hnd : ∀ d : Dir, (mapLookup d ([(0, [5]), (1, [5])] : List (Dir × List Hash))).Nodup := by
    intro d
    rw [mapLookup]
    split
    · decide
    · rw [mapLookup]
      split
      · decide
      · rw [mapLookup]; decide
  have hmem : (⟨1, 0, 1, 1, 1⟩ : Duplicate) ∈ report [(5, [0, 1])] [(0, [5]), (1, [5])] 1 := by
    decide
  exact ⟨hnd, hmem,
    (c6_intersection_bounds [(5, [0, 1])] [(0, [5]), (1, [5])] 1 hnd _ hmem).1⟩

theorem intersectionLen_pos {f p : List Hash} {h : Hash} (hf : h ∈ f) (hp : h ∈ p) :
    1 ≤ intersectionLen f p := by
  rw [intersectionLen_eq_card]
  exact Finset.card_pos.mpr ⟨h, by simp [Finset.mem_inter, hf, hp]⟩

/-- C1 (amended): for a corpus index whose per-fingerprint directory
sets are duplicate-free and consistent with `dir_hashes`, every reported
candidate joins two distinct directories whose fingerprint sets share at
least `max(minIntersection, 1)` fingerprints (the recorded intersection
being the exact cardinality), and each unordered pair appears at most
once.  The converse — that *every* pair sharing at least
`max(minIntersection, 1)` fingerprints is reported — is false: the loop
only pairs consecutive directories of each fingerprint's set (see the
counterexample). -/
theorem c1_report_sound_amended (hash_dirs : List (Hash × List Dir))
    (dir_hashes : List (Dir × List Hash)) (min_intersection : Nat)
    (hnd : ∀ p ∈ hash_dirs, (p.2 : List Dir).Nodup)
    (hcons : ∀ p ∈ hash_dirs, ∀ d ∈ p.2, (p.1 : Hash) ∈ mapLookup d dir_hashes) :
    (∀ x ∈ report hash_dirs dir_hashes min_intersection,
      x.dir1 ≠ x.dir2 ∧
      x.intersection = ((mapLookup x.dir1 dir_hashes).toFinset ∩
        (mapLookup x.dir2 dir_hashes).toFinset).card ∧
      max min_intersection 1 ≤ x.intersection) ∧
    ((report hash_dirs dir_hashes min_intersection).map
      (fun x => canonPair x.dir1 x.dir2)).Nodup := by
  refine ⟨?_, report_canon_nodup hash_dirs dir_hashes min_intersection⟩
  intro x hx
  obtain ⟨hfd, hmin⟩ := mem_report.mp hx
  obtain ⟨-, -, e3⟩ := find_duplicates_shape hash_dirs dir_hashes x hfd
  have horigin : ∀ y ∈ find_duplicates hash_dirs dir_hashes,
      y.dir1 ≠ y.dir2 ∧ 1 ≤ y.intersection := by
    refine outerLoop_origin dir_hashes _ hash_dirs [] [] hnd ?_ (by simp)
    intro p hp dir prev hdir hprev hne
    exact ⟨hne, intersectionLen_pos (hcons p hp dir hdir) (hcons p hp prev hprev)⟩
  obtain ⟨hne, hpos⟩ := horigin x hfd
  refine ⟨hne, by rw [e3, intersectionLen_eq_card], ?_⟩
  exact Nat.max_le.mpr ⟨hmin, hpos⟩

/-- Witness for the amended C1 at a concrete consistent corpus index. -/
theorem c1_report_sound_witness :
    (∀ p ∈ ([(5, [0, 1])] : List (Hash × List Dir)), (p.2 : List Dir).Nodup) ∧
    (∀ p ∈ ([(5, [0, 1])] : List (Hash × List Dir)), ∀ d ∈ p.2,
      (p.1 : Hash) ∈ mapLookup d ([(0, [5]), (1, [5])] : List (Dir × List Hash))) ∧
    (((report [(5, [0, 1])] [(0, [5]), (1, [5])] 1).map
      (fun x => canonPair x.dir1 x.dir2)).Nodup) := by
  refine ⟨by decide, by decide, ?_⟩
  exact (c1_report_sound_amended [(5, [0, 1])] [(0, [5]), (1, [5])] 1
    (by decide) (by decide)).2

/-- Counterexample to C1 as stated: in the corpus index where fingerprint
`5` is shared by the three directories `0`, `1`, `2` (each directory's
fingerprint set being `{5}`), directories `0` and `2` share exactly one
fingerprint, which is at least `max(minIntersection, 1)` for
`minIntersection = 1`, yet no candidate for the unordered pair `{0, 2}`
appears in the output: the loop paired `0` with `1` and `1` with `2`
only. -/
theorem c1_missing_pair_counterexample :
    ((mapLookup 0 ([(0, [5]), (1, [5]), (2, [5])] : List (Dir × List Hash))).toFinset ∩
      (mapLookup 2 ([(0, [5]), (1, [5]), (2, [5])] : List (Dir × List Hash))).toFinset).card
      = 1 ∧
    ((report [(5, [0, 1, 2])] [(0, [5]), (1, [5]), (2, [5])] 1).filter
      (fun x => decide (canonPair x.dir1 x.dir2 = (0, 2)))).length = 0 ∧
    ((report [(5, [0, 1, 2])] [(0, [5]), (1, [5]), (2, [5])] 1).filter
      (fun x => decide (canonPair x.dir1 x.dir2 = (0, 1)))).length = 1 := by
  decide

/-! ### Behaviour of the checksum read loop -/

theorem readLoop_nil (read_first_bytes bytes_readed : Nat) :
    readLoop [] read_first_bytes bytes_readed = [] := by
  rw [readLoop]
  split
  · rfl
  · simp

theorem readLoop_zero_aux :
    ∀ (n : Nat) (file : List Nat), file.length ≤ n → ∀ r, readLoop file 0 r = file := by
  intro n
  induction n with
  | zero =>
    intro file hf r
    have hfe : file = [] := List.length_eq_zero.mp (Nat.le_zero.mp hf)
    subst hfe
    exact readLoop_nil 0 r
  | succ n ih =>
    intro file hf r
    rcases eq_or_ne file [] with rfl | hne
    · exact readLoop_nil 0 r
    · rw [readLoop, if_neg (by simp), dif_neg hne]
      have hpos : 0 < file.length := List.length_pos.mpr hne
      have hlen : (file.drop 1024).length ≤ n := by
        simp only [List.length_drop]
        omega
      rw [ih (file.drop 1024) hlen]
      exact List.take_append_drop 1024 file

theorem readLoop_zero (file : List Nat) (r : Nat) : readLoop file 0 r = file :=
  readLoop_zero_aux file.length file le_rfl r

theorem readLoop_take_aux :
    ∀ (n : Nat) (file : List Nat) (hB r : Nat), file.length ≤ n → 0 < hB → r < hB →
      readLoop file hB r = file.take (1024 * ((hB - r + 1023) / 1024)) := by
  intro n
  induction n with
  | zero =>
    intro file hB r hf hpos hr
    have hfe : file = [] := List.length_eq_zero.mp (Nat.le_zero.mp hf)
    subst hfe
    rw [readLoop_nil]
    simp
  | succ n ih =>
    intro file hB r hf hpos hr
    rcases eq_or_ne file [] with rfl | hne
    · rw [readLoop_nil]; simp
    · rw [readLoop, if_neg (by omega), dif_neg hne]
      have hL : 0 < file.length := List.length_pos.mpr hne
      have hq1 : 1 ≤ (hB - r + 1023) / 1024 := by omega
      by_cases hsmall : file.length ≤ 1024
      · have hdrop : file.drop 1024 = [] := List.drop_eq_nil_of_le hsmall
        rw [hdrop, readLoop_nil, List.append_nil,
          List.take_of_length_le hsmall, List.take_of_length_le (by nlinarith)]
      · push_neg at hsmall
        have htake : (file.take 1024).length = 1024 := by
          simp only [List.length_take]
          omega
        rw [htake]
        by_cases hbreak : hB ≤ r + 1024
        · have hstop : readLoop (file.drop 1024) hB (r + 1024) = [] := by
            rw [readLoop, if_pos ⟨hpos, hbreak⟩]
          have hqe : (hB - r + 1023) / 1024 = 1 := by omega
          rw [hstop, List.append_nil, hqe, Nat.mul_one]
        · push_neg at hbreak
          have hlen2 : (file.drop 1024).length ≤ n := by
            simp only [List.length_drop]
            omega
          rw [ih (file.drop 1024) hB (r + 1024) hlen2 hpos hbreak, ← List.take_add]
          congr 1
          omega

theorem readLoop_take (file : List Nat) (hB : Nat) (hpos : 0 < hB) :
    readLoop file hB 0 = file.take (1024 * ((hB + 1023) / 1024)) := by
  have h := readLoop_take_aux file.length file hB 0 le_rfl hpos hpos
  simpa using h

/-- C3 (amended): the checksum is computed over the bytes the read loop
feeds to the hasher, namely: the whole file when `headBytes = 0`; the whole
file when the file is no longer than `headBytes` (no error); and otherwise
the prefix of length `1024 * ceil(headBytes / 1024)` — the smallest
multiple of the 1024-byte chunk size that is at least `headBytes`, *not*
`headBytes` itself (see the counterexample). -/
theorem c3_checksum_coverage_amended (file : List Nat) (headBytes : Nat) :
    (headBytes = 0 → get_crc32_checksum file headBytes = crc32 file) ∧
    (file.length ≤ headBytes → get_crc32_checksum file headBytes = crc32 file) ∧
    (0 < headBytes → get_crc32_checksum file headBytes =
      crc32 (file.take (1024 * ((headBytes + 1023) / 1024)))) := by
  refine ⟨?_, ?_, ?_⟩
  · rintro rfl
    rw [get_crc32_checksum, readLoop_zero]
  · intro hle
    rcases Nat.eq_zero_or_pos headBytes with rfl | hpos
    · rw [get_crc32_checksum, readLoop_zero]
    · rw [get_crc32_checksum, readLoop_take file headBytes hpos]
      congr 1
      exact List.take_of_length_le (by omega)
  · intro hpos
    rw [get_crc32_checksum, readLoop_take file headBytes hpos]

/-- Witness for the amended C3 at a concrete file and head limits. -/
theorem c3_checksum_coverage_witness :
    ((0 : Nat) = 0 ∧ get_crc32_checksum [1, 2, 3] 0 = crc32 [1, 2, 3]) ∧
    (([1, 2, 3] : List Nat).length ≤ 5 ∧ get_crc32_checksum [1, 2, 3] 5 = crc32 [1, 2, 3]) ∧
    (0 < 2048 ∧ get_crc32_checksum [1, 2, 3] 2048 =
      crc32 (([1, 2, 3] : List Nat).take (1024 * ((2048 + 1023) / 1024)))) :=
  ⟨⟨rfl, (c3_checksum_coverage_amended [1, 2, 3] 0).1 rfl⟩,
   ⟨by decide, (c3_checksum_coverage_amended [1, 2, 3] 5).2.1 (by decide)⟩,
   ⟨by decide, (c3_checksum_coverage_amended [1, 2, 3] 2048).2.2 (by decide)⟩⟩

/-- Counterexample to C3 as stated: with `headBytes = 1000 > 0` and a file
of 1025 bytes, the read loop feeds 1024 bytes — more than `headBytes` — to
the checksum, because it reads whole 1024-byte chunks and only re-checks
the limit between chunks. -/
theorem c3_headbytes_counterexample :
    (readLoop (List.replicate 1025 0) 1000 0).length = 1024 ∧ 1000 < 1024 := by
  refine ⟨?_, by norm_num⟩
  rw [readLoop_take _ 1000 (by norm_num)]
  norm_num

/-! ### The fingerprint combination (C9) -/

theorem get_crc32_checksum_head_zero (file : List Nat) :
    get_crc32_checksum file 0 = crc32 file := by
  rw [get_crc32_checksum, readLoop_zero]

/-- C9: the fingerprint is `checksum + size` in wrapping 64-bit
arithmetic, so it is not injective in the `(checksum, size)` pair: there
are two files with different checksums and different sizes but equal
fingerprints; any two files with `crc1 + size1 = crc2 + size2` collide;
and a size difference alone guarantees distinct fingerprints when the
checksums are equal. -/
theorem c9_fingerprint_addition :
    (∃ (c1 c2 : List Nat) (s1 s2 : Nat),
      get_crc32_checksum c1 0 ≠ get_crc32_checksum c2 0 ∧ s1 ≠ s2 ∧
      get_hash c1 s1 0 = get_hash c2 s2 0) ∧
    (∀ (c1 c2 : List Nat) (s1 s2 hB : Nat),
      get_crc32_checksum c1 hB + s1 % 2 ^ 64 = get_crc32_checksum c2 hB + s2 % 2 ^ 64 →
      get_hash c1 s1 hB = get_hash c2 s2 hB) ∧
    (∀ (c : List Nat) (hB s1 s2 : Nat), s1 < 2 ^ 64 → s2 < 2 ^ 64 → s1 ≠ s2 →
      get_hash c s1 hB ≠ get_hash c s2 hB) := by
  refine ⟨?_, ?_, ?_⟩
  · refine ⟨[], [0], 3523407757, 0, ?_, by decide, ?_⟩
    · rw [get_crc32_checksum_head_zero, get_crc32_checksum_head_zero]
      decide
    · rw [get_hash, get_hash, get_crc32_checksum_head_zero, get_crc32_checksum_head_zero]
      decide
  · intro c1 c2 s1 s2 hB heq
    rw [get_hash, get_hash, heq]
  · intro c hB s1 s2 h1 h2 hne hcontra
    rw [get_hash, get_hash] at hcontra
    exact hne (by omega)

/-- Witness for C9: two same-content files of sizes 5 and 6 get distinct
fingerprints. -/
theorem c9_fingerprint_addition_witness :
    5 < 2 ^ 64 ∧ 6 < 2 ^ 64 ∧ (5 : Nat) ≠ 6 ∧
    get_hash [7] 5 0 ≠ get_hash [7] 6 0 :=
  ⟨by norm_num, by norm_num, by decide,
   c9_fingerprint_addition.2.2 [7] 0 5 6 (by norm_num) (by norm_num) (by decide)⟩

/-! ### Order (in)dependence and per-directory counts -/

theorem get_hash_nil (s hB : Nat) : get_hash [] s hB = s % 2 ^ 64 := by
  rw [get_hash, get_crc32_checksum, readLoop_nil]
  have hc : crc32 [] = 0 := by decide
  rw [hc, Nat.zero_add, Nat.mod_mod_of_dvd _ dvd_rfl]

/-- C2 (amended): the Corpus Index itself is order-independent — for
any permutation of the input files, the two mappings agree membership-wise
(same fingerprint sets per directory, same directory sets per
fingerprint).  The full claim is false: the *reported candidates* do
depend on the iteration order of the index's internal sets (see the
counterexample). -/
theorem c2_load_order_independent_amended (files files' : List FileEntry)
    (min_size head : Nat) (hperm : files.Perm files') :
    (∀ (d : Dir) (f : Hash),
      f ∈ mapLookup d (load_files_info files min_size head ⟨[], []⟩).dir_hashes ↔
        f ∈ mapLookup d (load_files_info files' min_size head ⟨[], []⟩).dir_hashes) ∧
    (∀ (f : Hash) (d : Dir),
      d ∈ mapLookup f (load_files_info files min_size head ⟨[], []⟩).hash_dirs ↔
        d ∈ mapLookup f (load_files_info files' min_size head ⟨[], []⟩).hash_dirs) := by
  constructor
  · intro d f
    rw [load_dir_hashes_mem, load_dir_hashes_mem]
    simp only [mapLookup, List.not_mem_nil, false_or]
    constructor
    · rintro ⟨fe, hfe, h2, h3, h4⟩
      exact ⟨fe, hperm.mem_iff.mp hfe, h2, h3, h4⟩
    · rintro ⟨fe, hfe, h2, h3, h4⟩
      exact ⟨fe, hperm.mem_iff.mpr hfe, h2, h3, h4⟩
  · intro f d
    rw [load_hash_dirs_mem, load_hash_dirs_mem]
    simp only [mapLookup, List.not_mem_nil, false_or]
    constructor
    · rintro ⟨fe, hfe, h2, h3, h4⟩
      exact ⟨fe, hperm.mem_iff.mp hfe, h2, h3, h4⟩
    · rintro ⟨fe, hfe, h2, h3, h4⟩
      exact ⟨fe, hperm.mem_iff.mpr hfe, h2, h3, h4⟩

/-- Witness for the amended C2: two files fed in both orders. -/
theorem c2_load_order_witness :
    ([⟨0, [1]⟩, ⟨1, [2]⟩] : List FileEntry).Perm [⟨1, [2]⟩, ⟨0, [1]⟩] ∧
    ((0 : Hash) ∈ mapLookup 0
        (load_files_info [⟨0, [1]⟩, ⟨1, [2]⟩] 0 0 ⟨[], []⟩).dir_hashes ↔
      (0 : Hash) ∈ mapLookup 0
        (load_files_info [⟨1, [2]⟩, ⟨0, [1]⟩] 0 0 ⟨[], []⟩).dir_hashes) :=
  ⟨by decide,
   (c2_load_order_independent_amended [⟨0, [1]⟩, ⟨1, [2]⟩] [⟨1, [2]⟩, ⟨0, [1]⟩] 0 0
     (by decide)).1 0 0⟩

theorem load_eval_012 :
    load_files_info [⟨0, []⟩, ⟨1, []⟩, ⟨2, []⟩] 0 0 ⟨[], []⟩ =
      ⟨[(0, [0, 1, 2])], [(0, [0]), (1, [0]), (2, [0])]⟩ := by
  simp [load_files_info, get_hash_nil, FileEntry.size, mapInsert, insertSet, mapLookup]

theorem load_eval_021 :
    load_files_info [⟨0, []⟩, ⟨2, []⟩, ⟨1, []⟩] 0 0 ⟨[], []⟩ =
      ⟨[(0, [0, 2, 1])], [(0, [0]), (2, [0]), (1, [0])]⟩ := by
  simp [load_files_info, get_hash_nil, FileEntry.size, mapInsert, insertSet, mapLookup]

theorem run_eval_012 :
    run [⟨0, []⟩, ⟨1, []⟩, ⟨2, []⟩] 0 0 1 =
      [⟨1, 0, 1, 1, 1⟩, ⟨2, 1, 1, 1, 1⟩] := by
  have h : run [⟨0, []⟩, ⟨1, []⟩, ⟨2, []⟩] 0 0 1 =
      report (load_files_info [⟨0, []⟩, ⟨1, []⟩, ⟨2, []⟩] 0 0 ⟨[], []⟩).hash_dirs
        (load_files_info [⟨0, []⟩, ⟨1, []⟩, ⟨2, []⟩] 0 0 ⟨[], []⟩).dir_hashes 1 := rfl
  rw [h, load_eval_012]
  decide

theorem run_eval_021 :
    run [⟨0, []⟩, ⟨2, []⟩, ⟨1, []⟩] 0 0 1 =
      [⟨2, 0, 1, 1, 1⟩, ⟨1, 2, 1, 1, 1⟩] := by
  have h : run [⟨0, []⟩, ⟨2, []⟩, ⟨1, []⟩] 0 0 1 =
      report (load_files_info [⟨0, []⟩, ⟨2, []⟩, ⟨1, []⟩] 0 0 ⟨[], []⟩).hash_dirs
        (load_files_info [⟨0, []⟩, ⟨2, []⟩, ⟨1, []⟩] 0 0 ⟨[], []⟩).dir_hashes 1 := rfl
  rw [h, load_eval_021]
  decide

/-- Counterexample to C2 as stated: the same three files (one empty file in
each of the directories `0`, `1`, `2`) fed to the pipeline in two different
orders produce *different* sets of reported pairs — `{{0,1},{1,2}}` versus
`{{0,2},{1,2}}` — because the overlap finder only pairs directories that
are consecutive in a fingerprint's directory-set iteration order. -/
theorem c2_iteration_order_counterexample :
    ([⟨0, []⟩, ⟨1, []⟩, ⟨2, []⟩] : List FileEntry).Perm [⟨0, []⟩, ⟨2, []⟩, ⟨1, []⟩] ∧
    ((run [⟨0, []⟩, ⟨1, []⟩, ⟨2, []⟩] 0 0 1).map
        (fun x => canonPair x.dir1 x.dir2)).toFinset ≠
      ((run [⟨0, []⟩, ⟨2, []⟩, ⟨1, []⟩] 0 0 1).map
        (fun x => canonPair x.dir1 x.dir2)).toFinset := by
  refine ⟨by decide, ?_⟩
  rw [run_eval_012, run_eval_021]
  decide

theorem load_dir_hashes_count (files : List FileEntry) (min_size head : Nat) (d : Dir) :
    (mapLookup d (load_files_info files min_size head ⟨[], []⟩).dir_hashes).length =
      ((files.filter (fun fe => decide (¬fe.size < min_size) && decide (fe.dir = d))).map
        (fun fe => get_hash fe.content fe.size head)).toFinset.card := by
  have hnd := load_dir_hashes_nodup files min_size head ⟨[], []⟩
    (by intro d'; simp [mapLookup]) d
  rw [← List.toFinset_card_of_nodup hnd]
  congr 1
  ext a
  rw [List.mem_toFinset, load_dir_hashes_mem]
  simp only [mapLookup, List.not_mem_nil, false_or, List.mem_toFinset, List.mem_map,
    List.mem_filter, Bool.and_eq_true, decide_eq_true_eq]
  constructor
  · rintro ⟨fe, hfe, h2, h3, h4⟩
    exact ⟨fe, ⟨hfe, h2, h3⟩, h4⟩
  · rintro ⟨fe, ⟨hfe, h2, h3⟩, h4⟩
    exact ⟨fe, hfe, h2, h3, h4⟩

/-- C10: the per-directory counts reported with each candidate count
*distinct fingerprints*, not files: each equals the cardinality of the set
of fingerprints of the qualifying (large-enough) files in that directory,
so equal-fingerprint files contribute one unit. -/
theorem c10_counts_distinct_fingerprints (files : List FileEntry)
    (min_size head min_intersection : Nat) :
    ∀ x ∈ report (load_files_info files min_size head ⟨[], []⟩).hash_dirs
        (load_files_info files min_size head ⟨[], []⟩).dir_hashes min_intersection,
      x.dir1_files_number =
        ((files.filter (fun fe => decide (¬fe.size < min_size) &&
            decide (fe.dir = x.dir1))).map
          (fun fe => get_hash fe.content fe.size head)).toFinset.card ∧
      x.dir2_files_number =
        ((files.filter (fun fe => decide (¬fe.size < min_size) &&
            decide (fe.dir = x.dir2))).map
          (fun fe => get_hash fe.content fe.size head)).toFinset.card := by
  intro x hx
  obtain ⟨hfd, -⟩ := mem_report.mp hx
  obtain ⟨e1, e2, -⟩ := find_duplicates_shape _ _ x hfd
  rw [e1, e2, load_dir_hashes_count, load_dir_hashes_count]
  exact ⟨rfl, rfl⟩

theorem load_eval_001 :
    load_files_info [⟨0, []⟩, ⟨0, []⟩, ⟨1, []⟩] 0 0 ⟨[], []⟩ =
      ⟨[(0, [0, 1])], [(0, [0]), (1, [0])]⟩ := by
  simp [load_files_info, get_hash_nil, FileEntry.size, mapInsert, insertSet, mapLookup]

/-- Witness for C10: directory `0` holds two qualifying files with equal
fingerprints; its reported count is 1, the number of distinct
fingerprints, although the filter retains both files. -/
theorem c10_counts_witness :
    (⟨1, 0, 1, 1, 1⟩ : Duplicate) ∈
      report (load_files_info [⟨0, []⟩, ⟨0, []⟩, ⟨1, []⟩] 0 0 ⟨[], []⟩).hash_dirs
        (load_files_info [⟨0, []⟩, ⟨0, []⟩, ⟨1, []⟩] 0 0 ⟨[], []⟩).dir_hashes 1 ∧
    (([⟨0, []⟩, ⟨0, []⟩, ⟨1, []⟩] : List FileEntry).filter
      (fun fe => decide (¬fe.size < 0) && decide (fe.dir = 0))).length = 2 ∧
    (⟨1, 0, 1, 1, 1⟩ : Duplicate).dir2_files_number =
      ((([⟨0, []⟩, ⟨0, []⟩, ⟨1, []⟩] : List FileEntry).filter
        (fun fe => decide (¬fe.size < 0) && decide (fe.dir = 0))).map
        (fun fe => get_hash fe.content fe.size 0)).toFinset.card := by
  have hmem : (⟨1, 0, 1, 1, 1⟩ : Duplicate) ∈
      report (load_files_info [⟨0, []⟩, ⟨0, []⟩, ⟨1, []⟩] 0 0 ⟨[], []⟩).hash_dirs
        (load_files_info [⟨0, []⟩, ⟨0, []⟩, ⟨1, []⟩] 0 0 ⟨[], []⟩).dir_hashes 1 := by
    rw [load_eval_001]
    decide
  exact ⟨hmem, by decide,
    (c10_counts_distinct_fingerprints [⟨0, []⟩, ⟨0, []⟩, ⟨1, []⟩] 0 0 1 _ hmem).2⟩

end Dirdups
